import Mathlib

/-!
Shallow embedding of the belief-rule-base engine in `src/brb/brb.py`.

Python floats are modelled as rationals (ℚ); Python dicts as association
lists in insertion order (keys unique in any dict the interpreter builds);
raisable Python exceptions as an `Except` monad.  Each `assert` site of the
source gets its own error constructor so that theorems can speak about which
check fired; the payload of such a constructor records the value of the loop
variable at the failing assert (the Python `AssertionError` object itself
carries no message).
-/

abbrev AttrName := String

abbrev RefVal := String

/-- The exceptions the embedded code can raise.  `typeError`,
`valueError`, `zeroDivisionError` and `keyError` are the Python built-ins;
the `assert...` constructors stand for the `AssertionError` raised at the
corresponding `assert` statement of `src/brb/brb.py`. -/
inductive BrbError where
  | typeError
  | valueError
  | zeroDivisionError
  | keyError (k : AttrName)
  | assertNoWeight (a : AttrName)
  | assertMissingEvidence
  | assertKeysViewInU
  | assertValueNotInDomain (a : AttrName)
  | assertConsequentNotInDomain (d : RefVal)
  | assertUnknownAttribute (a : AttrName)
  deriving DecidableEq, Repr

/-- Python float division `a / b`: raises `ZeroDivisionError` when `b = 0`. -/
def pyDiv (a b : ℚ) : Except BrbError ℚ :=
  if b = 0 then .error .zeroDivisionError else .ok (a / b)

/-- Python `max(collection)`: `ValueError` on an empty collection, otherwise
the maximum element. -/
def pyMax : List ℚ → Except BrbError ℚ
  | [] => .error .valueError
  | x :: xs => .ok (xs.foldl max x)

/-- Python dict subscription `d[k]`: the value stored at `k`, `KeyError`
when the key is absent. -/
def dictGet {β : Type} (l : List (AttrName × β)) (k : AttrName) : Except BrbError β :=
  match l.find? (fun p => p.1 == k) with
  | some p => .ok p.2
  | none => .error (.keyError k)

/-- Python `d.keys()` of a dict modelled as an association list. -/
def keys {β : Type} (l : List (AttrName × β)) : List AttrName :=
  l.map Prod.fst

/-- `AttributeInput`: per the source annotation, `attr_input` maps each
attribute name to one `(referential value, belief degree)` tuple. -/
structure AttributeInput where
  attr_input : List (AttrName × (RefVal × ℚ))
  deriving Repr

/-- `AttributeInput.__init__`: stores the caller's mapping unchanged; the
constructor performs no validation whatsoever. -/
def AttributeInput.init (ev : List (AttrName × (RefVal × ℚ))) : AttributeInput :=
  ⟨ev⟩

/-- Invariant I6 restricted to this input shape: every belief degree the
input carries lies in `[0, 1]`.  (Nothing in the source checks this.) -/
def inputSatisfiesI6 (X : AttributeInput) : Bool :=
  X.attr_input.all (fun p => decide (0 ≤ p.2.2) && decide (p.2.2 ≤ 1))

/-- `Rule`: antecedent reference values `A_values`, antecedent weights
`delta`, rule weight `theta`, consequent belief degrees `beta`. -/
structure Rule where
  A_values : List (AttrName × RefVal)
  delta : List (AttrName × ℚ)
  theta : ℚ
  beta : List (RefVal × ℚ)
  deriving Repr

/-- `Rule.__init__`: stores the fields after the loop
`for U_i in A_values.keys(): assert U_i in delta.keys()`; the first
antecedent attribute without a weight makes the assert fail. -/
def Rule.init? (A_values : List (AttrName × RefVal)) (delta : List (AttrName × ℚ))
    (theta : ℚ) (beta : List (RefVal × ℚ)) : Except BrbError Rule :=
  match (keys A_values).find? (fun a => !((keys delta).contains a)) with
  | some a => .error (.assertNoWeight a)
  | none => .ok ⟨A_values, delta, theta, beta⟩

/-- `Rule._assert_input`: `assert rule_attributes.intersection(input_attributes)
== rule_attributes`, i.e. the rule's antecedent attributes must all be present
in the input. -/
def Rule.assert_input (r : Rule) (X : AttributeInput) : Except BrbError Unit :=
  if (keys r.A_values).all (fun a => (keys X.attr_input).contains a) then .ok ()
  else .error .assertMissingEvidence

/-- The dict comprehension `{attr: d / max(self.delta.values()) for attr, d in
self.delta.items()}`, element by element (the divisor `mx` is
`max(self.delta.values())`, constant over the loop). -/
def divAll (mx : ℚ) : List (AttrName × ℚ) → Except BrbError (List (AttrName × ℚ))
  | [] => .ok []
  | p :: rest => do
    let q ← pyDiv p.2 mx
    let tail ← divAll mx rest
    pure ((p.1, q) :: tail)

/-- The local `norm_delta` dictionary of `Rule.get_matching_degree`:
every weight divided by `max(self.delta.values())`. -/
def Rule.norm_delta (r : Rule) : Except BrbError (List (AttrName × ℚ)) := do
  let mx ← pyMax (r.delta.map Prod.snd)
  divAll mx r.delta

/-- The expression `X.attr_input[attr] ^ norm_delta[attr]` of the source.
`^` is Python's bitwise xor; the left operand is the input's
`(value, degree)` tuple and the right operand is a float (`norm_delta`
values come from true division), and no xor is defined between a tuple (or
any number) and a float, so the expression raises `TypeError`. -/
def pyXorTupleFloat (_v : RefVal × ℚ) (_nd : ℚ) : Except BrbError ℚ :=
  .error .typeError

/-- The list comprehension `[X.attr_input[attr] ^ norm_delta[attr] for attr
in self.A_values.keys()]`, element by element. -/
def xorAll (X : AttributeInput) (nd : List (AttrName × ℚ)) :
    List AttrName → Except BrbError (List ℚ)
  | [] => .ok []
  | a :: rest => do
    let v ← dictGet X.attr_input a
    let w ← dictGet nd a
    let x ← pyXorTupleFloat v w
    let tail ← xorAll X nd rest
    pure (x :: tail)

/-- `Rule.get_matching_degree`: assert the input, build `norm_delta`, build
`weighted_alpha`, return `np.prod(weighted_alpha)` (product of the list,
`1` for the empty list). -/
def Rule.get_matching_degree (r : Rule) (X : AttributeInput) : Except BrbError ℚ := do
  r.assert_input X
  let nd ← r.norm_delta
  let wa ← xorAll X nd (keys r.A_values)
  pure (wa.foldl (· * ·) 1)

/-- `RuleBaseModel`: declared attribute names `U`, per-attribute domains
`A`, consequent domain `D`, and the rule list.  (The source also stores an
unused field `F` whose semantics its own docstring marks `?`; it plays no
role in any operation and is omitted.) -/
structure RuleBaseModel where
  U : List AttrName
  A : List (AttrName × List RefVal)
  D : List RefVal
  rules : List Rule
  deriving Repr

/-- `RuleBaseModel.__init__`: stores the vocabulary and starts with an empty
rule list. -/
def RuleBaseModel.init (U : List AttrName) (A : List (AttrName × List RefVal))
    (D : List RefVal) : RuleBaseModel :=
  ⟨U, A, D, []⟩

/-- Python `==` between the `dict_keys` view `new_rule.A_values.keys()` and
one element of `self.U` (a string): `dict_keys` compares equal only to
sets/key views and `str` knows nothing of key views, so the comparison is
`False` whatever the operands contain. -/
def dictKeysEqStr (_ks : List AttrName) (_u : AttrName) : Bool :=
  false

/-- The loop `for U_i, A_i in new_rule.A_values.items(): assert A_i in
self.A[U_i]` of `add_rule` (note `self.A[U_i]` can itself raise `KeyError`). -/
def checkAValues (m : RuleBaseModel) : List (AttrName × RefVal) → Except BrbError Unit
  | [] => .ok ()
  | p :: rest => do
    let dom ← dictGet m.A p.1
    if dom.contains p.2 then checkAValues m rest
    else .error (.assertValueNotInDomain p.1)

/-- The loop `for D_n in new_rule.beta.keys(): assert D_n in self.D` of
`add_rule`. -/
def checkBeta (D : List RefVal) : List RefVal → Except BrbError Unit
  | [] => .ok ()
  | d :: rest =>
    if D.contains d then checkBeta D rest
    else .error (.assertConsequentNotInDomain d)

/-- `RuleBaseModel.add_rule`: first `assert new_rule.A_values.keys() in
self.U` — Python list membership, i.e. `any(u == new_rule.A_values.keys()
for u in self.U)` with `==` as in `dictKeysEqStr` — then the two
domain-membership loops, then append.  Returns the model with the appended
rule (the Python method mutates `self.rules` in place). -/
def RuleBaseModel.add_rule (m : RuleBaseModel) (r : Rule) : Except BrbError RuleBaseModel :=
  if m.U.any (dictKeysEqStr (keys r.A_values)) then do
    checkAValues m r.A_values
    checkBeta m.D (keys r.beta)
    pure ⟨m.U, m.A, m.D, m.rules ++ [r]⟩
  else .error .assertKeysViewInU

/-- The loop `for U_i in X.attr_input.keys(): assert U_i in self.U` of
`run` (invariant I5). -/
def checkI5 (U : List AttrName) : List AttrName → Except BrbError Unit
  | [] => .ok ()
  | a :: rest =>
    if U.contains a then checkI5 U rest
    else .error (.assertUnknownAttribute a)

/-- The list comprehension `[rule.get_matching_degree(X) for rule in
self.rules]` of `run`, element by element. -/
def matchAll (X : AttributeInput) : List Rule → Except BrbError (List ℚ)
  | [] => .ok []
  | r :: rest => do
    let x ← r.get_matching_degree X
    let tail ← matchAll X rest
    pure (x :: tail)

/-- `RuleBaseModel.run`: checks invariant I5, computes the matching degrees
of all rules — and there the source function ends: no aggregation is
performed and the Python function returns `None` (embedded as `Unit`). -/
def RuleBaseModel.run (m : RuleBaseModel) (X : AttributeInput) : Except BrbError Unit := do
  checkI5 m.U (keys X.attr_input)
  let _alpha ← matchAll X m.rules
  pure ()

/-- Scaling all of a rule's antecedent weights by a common factor
(used to state weight-scale insensitivity). -/
def Rule.scaleWeights (r : Rule) (c : ℚ) : Rule :=
  ⟨r.A_values, r.delta.map (fun p => (p.1, c * p.2)), r.theta, r.beta⟩

/-! ### Helper lemmas -/

theorem keys_map_snd {β γ : Type} (l : List (AttrName × β)) (f : AttrName × β → γ) :
    keys (l.map (fun p => (p.1, f p))) = keys l := by
  unfold keys
  rw [List.map_map]
  rfl

theorem le_foldl_max (xs : List ℚ) (x : ℚ) : x ≤ xs.foldl max x := by
  induction xs generalizing x with
  | nil => exact le_refl x
  | cons y ys ih => exact le_trans (le_max_left x y) (ih (max x y))

theorem mem_le_foldl_max (xs : List ℚ) (x y : ℚ) (h : y ∈ xs) : y ≤ xs.foldl max x := by
  induction xs generalizing x with
  | nil => cases h
  | cons z zs ih =>
    rcases List.mem_cons.mp h with rfl | hz
    · exact le_trans (le_max_right x y) (le_foldl_max zs (max x y))
    · exact ih (max x z) hz

theorem foldl_max_mem (xs : List ℚ) (x : ℚ) : xs.foldl max x = x ∨ xs.foldl max x ∈ xs := by
  induction xs generalizing x with
  | nil => exact Or.inl rfl
  | cons y ys ih =>
    rw [List.foldl_cons]
    rcases ih (max x y) with h | h
    · rw [h]
      rcases max_choice x y with hm | hm
      · exact Or.inl hm
      · exact Or.inr (by rw [hm]; exact List.mem_cons_self y ys)
    · exact Or.inr (List.mem_cons_of_mem y h)

theorem pyMax_ok_mem (l : List ℚ) (m : ℚ) (h : pyMax l = .ok m) : m ∈ l := by
  cases l with
  | nil => simp [pyMax] at h
  | cons x xs =>
    have hm : m = xs.foldl max x := by simpa [pyMax] using h.symm
    subst hm
    rcases foldl_max_mem xs x with h' | h'
    · rw [h']
      exact List.mem_cons_self x xs
    · exact List.mem_cons_of_mem x h'

theorem pyMax_ok_le (l : List ℚ) (m : ℚ) (h : pyMax l = .ok m) :
    ∀ y ∈ l, y ≤ m := by
  cases l with
  | nil => simp [pyMax] at h
  | cons x xs =>
    have hm : m = xs.foldl max x := by simpa [pyMax] using h.symm
    subst hm
    intro y hy
    rcases List.mem_cons.mp hy with rfl | hy'
    · exact le_foldl_max xs y
    · exact mem_le_foldl_max xs x y hy'

theorem dictGet_ok_of_mem {β : Type} (l : List (AttrName × β)) (a : AttrName)
    (h : a ∈ keys l) : ∃ v, dictGet l a = .ok v := by
  induction l with
  | nil => simp [keys] at h
  | cons p rest ih =>
    by_cases hpa : p.1 = a
    · exact ⟨p.2, by simp [dictGet, List.find?_cons, hpa]⟩
    · have hmem : a ∈ keys rest := by
        rcases by simpa [keys] using h with h1 | h1
        · exact absurd h1.symm hpa
        · simpa [keys] using h1
      rcases ih hmem with ⟨v, hv⟩
      refine ⟨v, ?_⟩
      simpa [dictGet, List.find?_cons, hpa] using hv

theorem divAll_ok (mx : ℚ) (hmx : mx ≠ 0) (l : List (AttrName × ℚ)) :
    divAll mx l = .ok (l.map (fun p => (p.1, p.2 / mx))) := by
  induction l with
  | nil => rfl
  | cons p rest ih =>
    simp [divAll, pyDiv, hmx, ih, Bind.bind, Except.bind, Pure.pure, Except.pure]

theorem divAll_ok_inv (mx : ℚ) (l : List (AttrName × ℚ)) (nd : List (AttrName × ℚ))
    (h : divAll mx l = .ok nd) :
    nd = l.map (fun p => (p.1, p.2 / mx)) ∧ (l ≠ [] → mx ≠ 0) := by
  induction l generalizing nd with
  | nil =>
    refine ⟨?_, fun hne => absurd rfl hne⟩
    simpa [divAll] using h.symm
  | cons p rest ih =>
    by_cases hmx : mx = 0
    · simp [divAll, pyDiv, hmx, Bind.bind, Except.bind] at h
    · rw [divAll_ok mx hmx] at h
      refine ⟨by simpa using h.symm, fun _ => hmx⟩

theorem norm_delta_ok (r : Rule) (mx : ℚ) (hpm : pyMax (r.delta.map Prod.snd) = .ok mx)
    (hmx : mx ≠ 0) :
    r.norm_delta = .ok (r.delta.map (fun p => (p.1, p.2 / mx))) := by
  simp [Rule.norm_delta, hpm, divAll_ok mx hmx, Bind.bind, Except.bind]

theorem norm_delta_ok_inv (r : Rule) (nd : List (AttrName × ℚ)) (h : r.norm_delta = .ok nd) :
    ∃ mx, pyMax (r.delta.map Prod.snd) = .ok mx ∧
      nd = r.delta.map (fun p => (p.1, p.2 / mx)) ∧ (r.delta ≠ [] → mx ≠ 0) := by
  simp only [Rule.norm_delta] at h
  cases hpm : pyMax (r.delta.map Prod.snd) with
  | error e =>
    rw [hpm] at h
    simp [Bind.bind, Except.bind] at h
  | ok mx =>
    rw [hpm] at h
    simp only [Bind.bind, Except.bind] at h
    rcases divAll_ok_inv mx r.delta nd h with ⟨h1, h2⟩
    exact ⟨mx, rfl, h1, h2⟩

theorem checkI5_ok_iff (U ks : List AttrName) :
    checkI5 U ks = .ok () ↔ ∀ a ∈ ks, a ∈ U := by
  induction ks with
  | nil => simp [checkI5]
  | cons a rest ih =>
    by_cases ha : a ∈ U
    · have hc : U.contains a = true := List.elem_iff.mpr ha
      simp [checkI5, hc, ih, ha]
    · have hc : U.contains a = false := by
        rw [Bool.eq_false_iff]
        intro hcon
        exact ha (List.elem_iff.mp hcon)
      simp [checkI5, hc, ha]

theorem checkI5_error (U ks : List AttrName) (h : ¬ ∀ a ∈ ks, a ∈ U) :
    ∃ a, a ∈ ks ∧ a ∉ U ∧ checkI5 U ks = .error (.assertUnknownAttribute a) := by
  induction ks with
  | nil => exact absurd (by simp) h
  | cons a rest ih =>
    by_cases ha : a ∈ U
    · have h' : ¬ ∀ x ∈ rest, x ∈ U := by
        intro hall
        exact h (List.forall_mem_cons.mpr ⟨ha, hall⟩)
      rcases ih h' with ⟨b, hb1, hb2, hb3⟩
      have hstep : checkI5 U (a :: rest) = checkI5 U rest := by
        simp [checkI5, ha]
      exact ⟨b, List.mem_cons_of_mem a hb1, hb2, hstep.trans hb3⟩
    · exact ⟨a, List.mem_cons_self a rest, ha, by simp [checkI5, ha]⟩

theorem run_error_of_checkI5 (m : RuleBaseModel) (X : AttributeInput) (e : BrbError)
    (h : checkI5 m.U (keys X.attr_input) = .error e) :
    m.run X = .error e := by
  simp [RuleBaseModel.run, h, Bind.bind, Except.bind]

theorem gmd_typeError (r : Rule) (X : AttributeInput) (nd : List (AttrName × ℚ))
    (hne : r.A_values ≠ [])
    (hin : ∀ a ∈ keys r.A_values, a ∈ keys X.attr_input)
    (hnd : r.norm_delta = .ok nd)
    (hkd : ∀ a ∈ keys r.A_values, a ∈ keys nd) :
    r.get_matching_degree X = .error .typeError := by
  have hassert : r.assert_input X = .ok () := by
    simp only [Rule.assert_input]
    rw [if_pos]
    rw [List.all_eq_true]
    intro a hma
    exact List.elem_iff.mpr (hin a hma)
  have hxor : xorAll X nd (keys r.A_values) = .error .typeError := by
    cases hA : keys r.A_values with
    | nil =>
      have h0 : List.map Prod.fst r.A_values = [] := hA
      exact absurd (List.map_eq_nil_iff.mp h0) hne
    | cons a rest =>
      have ha1 : a ∈ keys r.A_values := by
        rw [hA]
        exact List.mem_cons_self a rest
      rcases dictGet_ok_of_mem X.attr_input a (hin a ha1) with ⟨v, hv⟩
      rcases dictGet_ok_of_mem nd a (hkd a ha1) with ⟨w, hw⟩
      simp [xorAll, hv, hw, pyXorTupleFloat, Bind.bind, Except.bind]
  simp [Rule.get_matching_degree, hassert, hnd, hxor, Bind.bind, Except.bind]

theorem foldl_max_scale (c : ℚ) (hc : 0 ≤ c) (xs : List ℚ) (x : ℚ) :
    (xs.map (fun y => c * y)).foldl max (c * x) = c * xs.foldl max x := by
  induction xs generalizing x with
  | nil => rfl
  | cons y ys ih =>
    rw [List.map_cons, List.foldl_cons, List.foldl_cons, ← mul_max_of_nonneg x y hc, ih]

theorem pyMax_scale (c : ℚ) (hc : 0 ≤ c) (l : List ℚ) :
    pyMax (l.map (fun y => c * y)) = (pyMax l).map (fun y => c * y) := by
  cases l with
  | nil => rfl
  | cons x xs => simp [pyMax, foldl_max_scale c hc, Except.map]

theorem divAll_scale (c : ℚ) (hc : c ≠ 0) (mx : ℚ) (l : List (AttrName × ℚ)) :
    divAll (c * mx) (l.map (fun p => (p.1, c * p.2))) = divAll mx l := by
  induction l with
  | nil => rfl
  | cons p rest ih =>
    by_cases hmx : mx = 0
    · simp [divAll, pyDiv, hmx, hc, Bind.bind, Except.bind]
    · have h1 : c * mx ≠ 0 := mul_ne_zero hc hmx
      simp [divAll, pyDiv, hmx, h1, ih, mul_div_mul_left p.2 mx hc,
        Bind.bind, Except.bind]

theorem norm_delta_scale (r : Rule) (c : ℚ) (hc : 0 < c) :
    (r.scaleWeights c).norm_delta = r.norm_delta := by
  simp only [Rule.norm_delta, Rule.scaleWeights]
  have hmap : (r.delta.map (fun p => (p.1, c * p.2))).map Prod.snd
      = (r.delta.map Prod.snd).map (fun y => c * y) := by
    rw [List.map_map, List.map_map]
    rfl
  rw [hmap, pyMax_scale c hc.le]
  cases hpm : pyMax (r.delta.map Prod.snd) with
  | error e => simp [Except.map, Bind.bind, Except.bind]
  | ok mx => simp [Except.map, Bind.bind, Except.bind, divAll_scale c hc.ne' mx]

theorem gmd_scale (r : Rule) (c : ℚ) (hc : 0 < c) (X : AttributeInput) :
    (r.scaleWeights c).get_matching_degree X = r.get_matching_degree X := by
  simp only [Rule.get_matching_degree, norm_delta_scale r c hc]
  rfl

theorem keys_div (l : List (AttrName × ℚ)) (mx : ℚ) :
    keys (l.map (fun p => (p.1, p.2 / mx))) = keys l := by
  unfold keys
  rw [List.map_map]
  rfl

/-! ### Claim theorems -/

/-- C1: the claim says `run` returns a belief distribution over the
consequent domain plus a residual ignorance summing to 1.  The source's
`run` does neither: on the spec's own example scenario (one rule
`temp: high ↦ fail: 0.9`, input `temp ↦ (high, 1)`) it raises `TypeError`
from the bitwise xor inside the matching-degree computation, and even on a
rule-free model it just falls off the end returning `None` — the result
carries no distribution and no residual ignorance at all. -/
theorem c1_run_returns_no_distribution :
    RuleBaseModel.run
        ⟨["temp"], [("temp", ["low", "high"])], ["ok", "fail"],
          [⟨[("temp", "high")], [("temp", 1)], 1, [("fail", 9/10)]⟩]⟩
        ⟨[("temp", ("high", 1))]⟩ = .error .typeError
    ∧ RuleBaseModel.run (RuleBaseModel.init ["temp"] [("temp", ["low", "high"])] ["ok", "fail"])
        ⟨[("temp", ("high", 1))]⟩ = .ok () :=
  ⟨rfl, rfl⟩

/-- C2: the claim says `get_matching_degree` computes the weighted
geometric mean of the input's belief degrees for the rule's required
values, using real exponentiation.  The source instead applies Python's
bitwise xor `^` to the raw input entry and the float-valued normalized
weight, which raises `TypeError`: on the spec's example scenario, where
the matching degree should be 1, the call fails. -/
theorem c2_matching_degree_raises_typeError :
    Rule.get_matching_degree ⟨[("temp", "high")], [("temp", 1)], 1, [("fail", 9/10)]⟩
      ⟨[("temp", ("high", 1))]⟩ = .error .typeError :=
  rfl

/-- C3: the claim says `add_rule` validates I1–I4 and appends valid rules.
In the source the first check is `assert new_rule.A_values.keys() in
self.U` — membership of the keys-view object in the attribute-name list;
a keys view never compares equal to a string, so this assert fails for
every rule, valid ones included, no rule is ever appended, and no later
check (nor any I4 check, which `add_rule` lacks entirely) is reached. -/
theorem c3_add_rule_rejects_every_rule (m : RuleBaseModel) (r : Rule) :
    m.add_rule r = .error .assertKeysViewInU := by
  have hany : m.U.any (dictKeysEqStr (keys r.A_values)) = false :=
    List.any_eq_false.mpr (fun u _ => by simp [dictKeysEqStr])
  simp [RuleBaseModel.add_rule, hany]

/-- C4: the claim says a rule whose antecedent attributes are missing from
the input is treated as zero activation and `run` still completes.  In the
source, `_assert_input`'s AssertionError propagates straight out of the
matching-degree list comprehension with no recovery: a model whose single
rule needs `temp` makes `run` abort on an input carrying only `hum`
evidence. -/
theorem c4_missing_evidence_aborts_run :
    RuleBaseModel.run
        ⟨["temp", "hum"], [("temp", ["low", "high"]), ("hum", ["dry", "wet"])], ["ok"],
          [⟨[("temp", "high")], [("temp", 1)], 1, []⟩]⟩
        ⟨[("hum", ("wet", 1))]⟩ = .error .assertMissingEvidence :=
  rfl

/-- C5: `run` checks invariant I5 first: when the input carries an
attribute outside `U`, the loop's assert fires at an offending attribute
and `run` aborts with that error before touching any rule; the check
passes exactly when every input attribute is among the declared ones. -/
theorem c5_run_unknown_attribute (m : RuleBaseModel) (X : AttributeInput) :
    ((∃ a ∈ keys X.attr_input, a ∉ m.U) →
      ∃ a ∈ keys X.attr_input, a ∉ m.U ∧ m.run X = .error (.assertUnknownAttribute a))
    ∧ (checkI5 m.U (keys X.attr_input) = .ok () ↔ ∀ a ∈ keys X.attr_input, a ∈ m.U) := by
  constructor
  · intro hex
    have hnot : ¬ ∀ a ∈ keys X.attr_input, a ∈ m.U := by
      rcases hex with ⟨a, ha1, ha2⟩
      intro hall
      exact ha2 (hall a ha1)
    rcases checkI5_error m.U (keys X.attr_input) hnot with ⟨a, h1, h2, h3⟩
    exact ⟨a, h1, h2, run_error_of_checkI5 m X _ h3⟩
  · exact checkI5_ok_iff m.U (keys X.attr_input)

/-- C5 witness: a model declaring only `temp`, fed an input about `smell`,
aborts with the I5 assert at `smell`. -/
theorem c5_run_unknown_attribute_witness :
    ∃ a ∈ keys (AttributeInput.init [("smell", ("bad", 1))]).attr_input,
      a ∉ (RuleBaseModel.init ["temp"] [] []).U ∧
      RuleBaseModel.run (RuleBaseModel.init ["temp"] [] [])
        (AttributeInput.init [("smell", ("bad", 1))]) = .error (.assertUnknownAttribute a) :=
  (c5_run_unknown_attribute (RuleBaseModel.init ["temp"] [] [])
      (AttributeInput.init [("smell", ("bad", 1))])).1
    ⟨"smell", by decide, by decide⟩

/-- C6 counterexample: for the rule with single antecedent `a` (weight 1,
strictly positive) and an extra weight entry `b ↦ 2`, the normalized
weight of `a` — its maximally-weighted (indeed only) antecedent — is 1/2,
not 1: the divisor is the maximum over the whole weights dict, not over
the antecedent weights. -/
theorem c6_counterexample :
    ∃ nd, Rule.norm_delta ⟨[("a", "v")], [("a", 1), ("b", 2)], 1, []⟩ = .ok nd
      ∧ dictGet nd "a" = .ok (1/2) ∧ ((1 : ℚ)/2) ≠ 1 :=
  ⟨[("a", 1/2), ("b", 2/2)], rfl, rfl, by norm_num⟩

/-- C6 (amended): for every rule with a strictly positive weight somewhere
in its weights dict, a maximally-weighted entry of the weights dict gets
normalized weight exactly 1; and scaling all the weights by a common
positive factor changes neither the normalized weights nor the result of
`get_matching_degree`. -/
theorem c6_norm_weight_of_max_entry_is_one (r : Rule)
    (hpos : ∃ p ∈ r.delta, 0 < p.2) :
    (∃ nd, r.norm_delta = .ok nd ∧
      ∃ a mx, (a, mx) ∈ r.delta ∧ (∀ q ∈ r.delta, q.2 ≤ mx) ∧ (a, (1 : ℚ)) ∈ nd)
    ∧ ∀ c, 0 < c → (r.scaleWeights c).norm_delta = r.norm_delta
        ∧ ∀ X, (r.scaleWeights c).get_matching_degree X = r.get_matching_degree X := by
  constructor
  · rcases hpos with ⟨p0, hp0, hp0pos⟩
    have hvne : r.delta.map Prod.snd ≠ [] := by
      intro h0
      rw [List.map_eq_nil_iff] at h0
      rw [h0] at hp0
      cases hp0
    obtain ⟨mx, hpm⟩ : ∃ mx, pyMax (r.delta.map Prod.snd) = .ok mx := by
      cases hv : r.delta.map Prod.snd with
      | nil => exact absurd hv hvne
      | cons x xs => exact ⟨xs.foldl max x, rfl⟩
    have hle : ∀ q ∈ r.delta, q.2 ≤ mx := fun q hq =>
      pyMax_ok_le _ mx hpm q.2 (List.mem_map_of_mem Prod.snd hq)
    have hmxpos : 0 < mx := lt_of_lt_of_le hp0pos (hle p0 hp0)
    have hmem : mx ∈ r.delta.map Prod.snd := pyMax_ok_mem _ mx hpm
    rcases List.mem_map.mp hmem with ⟨q0, hq0, hq0v⟩
    refine ⟨r.delta.map (fun p => (p.1, p.2 / mx)), norm_delta_ok r mx hpm hmxpos.ne', ?_⟩
    refine ⟨q0.1, mx, ?_, hle, ?_⟩
    · rw [← hq0v]
      exact hq0
    · have hm1 : (q0.1, q0.2 / mx) ∈ r.delta.map (fun p => (p.1, p.2 / mx)) :=
        List.mem_map_of_mem _ hq0
      rw [hq0v, div_self hmxpos.ne'] at hm1
      exact hm1
  · intro c hc
    exact ⟨norm_delta_scale r c hc, fun X => gmd_scale r c hc X⟩

/-- C6 witness: for the rule with weights `a ↦ 2, b ↦ 1`, the normalized
weights are computed and the maximal entry `a` gets exactly 1. -/
theorem c6_witness :
    ∃ nd, Rule.norm_delta ⟨[("a", "v")], [("a", 2), ("b", 1)], 1, []⟩ = .ok nd ∧
      ∃ a mx, (a, mx) ∈ (Rule.mk [("a", "v")] [("a", 2), ("b", 1)] 1 []).delta ∧
        (∀ q ∈ (Rule.mk [("a", "v")] [("a", 2), ("b", 1)] 1 []).delta, q.2 ≤ mx) ∧
        (a, (1 : ℚ)) ∈ nd :=
  (c6_norm_weight_of_max_entry_is_one ⟨[("a", "v")], [("a", 2), ("b", 1)], 1, []⟩
    ⟨("a", 2), by decide, by decide⟩).1

/-- C7: nothing in the source rejects an all-zero-weights rule as such:
`Rule.__init__` accepts it, `add_rule` rejects it — but only through the
keys-view assert that rejects every rule whatever its weights — and
`get_matching_degree` then divides by `max(self.delta.values()) = 0`,
raising `ZeroDivisionError` instead of any defined behavior; `run` has no
zero-activation full-ignorance terminal result at all (it computes no
result whatsoever). -/
theorem c7_all_zero_weights_unhandled :
    Rule.init? [("temp", "high")] [("temp", 0)] 1 [("fail", 9/10)]
        = .ok ⟨[("temp", "high")], [("temp", 0)], 1, [("fail", 9/10)]⟩
    ∧ RuleBaseModel.add_rule
        (RuleBaseModel.init ["temp"] [("temp", ["low", "high"])] ["ok", "fail"])
        ⟨[("temp", "high")], [("temp", 0)], 1, [("fail", 9/10)]⟩
        = .error .assertKeysViewInU
    ∧ Rule.get_matching_degree ⟨[("temp", "high")], [("temp", 0)], 1, [("fail", 9/10)]⟩
        ⟨[("temp", ("high", 1))]⟩ = .error .zeroDivisionError :=
  ⟨rfl, rfl, rfl⟩

/-- C8: `Rule.__init__` enforces invariant I4 by itself: construction
succeeds exactly when every antecedent attribute has a weight entry in
`delta`, and every successfully constructed rule has weights keys that are
a superset of its antecedent keys. -/
theorem c8_rule_constructor_enforces_I4 (Av : List (AttrName × RefVal))
    (d : List (AttrName × ℚ)) (t : ℚ) (bet : List (RefVal × ℚ)) :
    (Rule.init? Av d t bet = .ok ⟨Av, d, t, bet⟩ ↔ ∀ a ∈ keys Av, a ∈ keys d)
    ∧ ∀ r, Rule.init? Av d t bet = .ok r → ∀ a ∈ keys r.A_values, a ∈ keys r.delta := by
  have hiff : (keys Av).find? (fun a => !((keys d).contains a)) = none
      ↔ ∀ a ∈ keys Av, a ∈ keys d := by
    rw [List.find?_eq_none]
    constructor
    · intro h a ha
      have hb : (keys d).contains a = true := by
        cases hcb : (keys d).contains a with
        | true => rfl
        | false => exact absurd (by rw [hcb]; rfl) (h a ha)
      exact List.elem_iff.mp hb
    · intro h a ha
      have hc : (keys d).contains a = true := List.elem_iff.mpr (h a ha)
      rw [hc]
      simp
  constructor
  · constructor
    · intro hok
      refine hiff.mp ?_
      cases hf : (keys Av).find? (fun a => !((keys d).contains a)) with
      | none => rfl
      | some b =>
        simp only [Rule.init?] at hok
        rw [hf] at hok
        cases hok
    · intro hall
      have hnone := hiff.mpr hall
      simp only [Rule.init?]
      rw [hnone]
  · intro r hok
    cases hf : (keys Av).find? (fun a => !((keys d).contains a)) with
    | some b =>
      simp only [Rule.init?] at hok
      rw [hf] at hok
      cases hok
    | none =>
      simp only [Rule.init?] at hok
      rw [hf] at hok
      cases hok
      exact hiff.mp hf

/-- C8 witness: the spec's example rule constructs successfully, its single
antecedent `temp` having the weight entry `temp ↦ 1`. -/
theorem c8_witness :
    Rule.init? [("temp", "high")] [("temp", 1)] 1 [("fail", 9/10)]
      = .ok ⟨[("temp", "high")], [("temp", 1)], 1, [("fail", 9/10)]⟩ :=
  (c8_rule_constructor_enforces_I4 [("temp", "high")] [("temp", 1)] 1 [("fail", 9/10)]).1.mpr
    (by decide)

/-- C9 counterexample: with the extra, strictly larger weight entry
`b ↦ 2` present the matching degree is the very same `TypeError` as with
it removed — the xor defect fails the computation before any weight value
can influence the result — so the extra entry does not "change the
matching degree" as the claim states. -/
theorem c9_counterexample :
    Rule.get_matching_degree ⟨[("a", "v")], [("a", 1), ("b", 2)], 1, []⟩
        ⟨[("a", ("v", 1))]⟩ = .error .typeError
    ∧ Rule.get_matching_degree ⟨[("a", "v")], [("a", 1)], 1, []⟩
        ⟨[("a", ("v", 1))]⟩ = .error .typeError :=
  ⟨rfl, rfl⟩

/-- C9 (amended): the normalizing divisor in `get_matching_degree` is the
maximum over all entries of the weights dict, non-antecedent entries
included: when an extra entry strictly dominates every antecedent weight
(antecedent weights being non-negative), no antecedent attribute attains
normalized weight 1 — all normalized antecedent weights are below 1 —
while the matching degree itself is the `TypeError` of the xor defect
regardless of the weights, hence unchanged by the extra entry. -/
theorem c9_extra_weight_entry_shrinks_norm_weights (r : Rule) (b : AttrName) (w : ℚ)
    (hb : (b, w) ∈ r.delta) (hbna : b ∉ keys r.A_values)
    (hdom : ∀ p ∈ r.delta, p.1 ∈ keys r.A_values → 0 ≤ p.2 ∧ p.2 < w) :
    (∀ nd, r.norm_delta = .ok nd → ∀ p ∈ nd, p.1 ∈ keys r.A_values → p.2 < 1)
    ∧ ∀ X : AttributeInput, r.A_values ≠ [] →
        (∀ a ∈ keys r.A_values, a ∈ keys X.attr_input) →
        (∀ a ∈ keys r.A_values, a ∈ keys r.delta) →
        r.get_matching_degree X = .error .typeError := by
  have hwmem : w ∈ r.delta.map Prod.snd := List.mem_map_of_mem Prod.snd hb
  constructor
  · intro nd hnd p hp hpk
    rcases norm_delta_ok_inv r nd hnd with ⟨mx, hpm, hndeq, _⟩
    have hwle : w ≤ mx := pyMax_ok_le _ mx hpm w hwmem
    subst hndeq
    obtain ⟨q, hq, rfl⟩ := List.mem_map.mp hp
    have hq1 : q.1 ∈ keys r.A_values := hpk
    rcases hdom q hq hq1 with ⟨hq0, hqw⟩
    have hmxpos : 0 < mx := lt_of_le_of_lt hq0 (lt_of_lt_of_le hqw hwle)
    show q.2 / mx < 1
    exact (div_lt_one hmxpos).mpr (lt_of_lt_of_le hqw hwle)
  · intro X hne hinX hind
    obtain ⟨a0, ha0⟩ : ∃ a0, a0 ∈ keys r.A_values := by
      cases hA : r.A_values with
      | nil => exact absurd hA hne
      | cons q rest => exact ⟨q.1, by simp [keys]⟩
    rcases List.mem_map.mp (hind a0 ha0) with ⟨q, hq, hq1⟩
    have hq1' : q.1 ∈ keys r.A_values := by
      rw [hq1]
      exact ha0
    rcases hdom q hq hq1' with ⟨hq0, hqw⟩
    have hdne : r.delta.map Prod.snd ≠ [] := by
      intro h0
      rw [List.map_eq_nil_iff] at h0
      rw [h0] at hq
      cases hq
    obtain ⟨mx, hpm⟩ : ∃ mx, pyMax (r.delta.map Prod.snd) = .ok mx := by
      cases hv : r.delta.map Prod.snd with
      | nil => exact absurd hv hdne
      | cons x xs => exact ⟨xs.foldl max x, rfl⟩
    have hwle : w ≤ mx := pyMax_ok_le _ mx hpm w hwmem
    have hmxpos : 0 < mx := lt_of_le_of_lt hq0 (lt_of_lt_of_le hqw hwle)
    refine gmd_typeError r X _ hne hinX (norm_delta_ok r mx hpm hmxpos.ne') ?_
    intro a ha
    rw [keys_div r.delta mx]
    exact hind a ha

/-- C9 witness: for the rule with antecedent `a` (weight 1) and extra
entry `b ↦ 2`, on an input providing evidence for `a`, the matching degree
is the xor TypeError. -/
theorem c9_witness :
    Rule.get_matching_degree ⟨[("a", "v")], [("a", 1), ("b", 2)], 1, []⟩
      ⟨[("a", ("v", 2/5))]⟩ = .error .typeError :=
  (c9_extra_weight_entry_shrinks_norm_weights
      ⟨[("a", "v")], [("a", 1), ("b", 2)], 1, []⟩ "b" 2
      (by decide) (by decide) (by decide)).2
    ⟨[("a", ("v", 2/5))]⟩ (by decide) (by decide) (by decide)

/-- C10: `AttributeInput.__init__` is total and validation-free: it stores
any caller-supplied evidence mapping unchanged — including one whose
belief degree 2 violates invariant I6, which no operation of the class
checks. -/
theorem c10_attribute_input_unvalidated :
    (∀ ev, (AttributeInput.init ev).attr_input = ev)
    ∧ ∃ ev, inputSatisfiesI6 (AttributeInput.init ev) = false
      ∧ (AttributeInput.init ev).attr_input = ev :=
  ⟨fun _ => rfl, ⟨[("temp", ("high", 2))], rfl, rfl⟩⟩
